import Mathlib

/-!
Verification of the Base256 byte-arithmetic engine.

A Base256 value is modelled as a `List Nat` of big-endian base-256 digits
(index 0 is most significant); the `u8` well-formedness invariant is the
predicate `Bytes` (every entry below 256).  Machine casts (`as u8`) are
modelled with explicit `% 256`.  The subtraction operator, which terminates
the process on underflow, is modelled as returning `Option`: `none` stands
for the fatal path.
-/

/-- Well-formedness of a byte buffer: every digit fits in a `u8`. -/
def Bytes (l : List Nat) : Prop := ∀ x ∈ l, x < 256

instance : DecidablePred Bytes := fun l =>
  inferInstanceAs (Decidable (∀ x ∈ l, x < 256))

/-- Per-digit addition with carry, mirroring the nested `checked_add`
structure of `add_scalar_overflow` in the source: the outer branch tests
whether `a + b` fits in a byte, the inner one whether adding the carry still
fits; both overflow paths widen to 16 bits, take the quotient by 256 as the
next carry and the remainder as the digit. -/
def add_scalar_overflow (a b overflow : Nat) : Nat × Nat :=
  if a + b ≤ 255 then
    if a + b + overflow ≤ 255 then
      (a + b + overflow, 0)
    else
      ((a + b + overflow - ((a + b + overflow) / 256) * 256) % 256,
        ((a + b + overflow) / 256) % 256)
  else
    ((a + b + overflow - ((a + b + overflow) / 256) * 256) % 256,
      ((a + b + overflow) / 256) % 256)

/-- Per-digit subtraction with borrow, mirroring the nested `checked_sub`
structure of `sub_scalar_underflow` in the source: on either underflow path
the digit is the 16-bit value `a + 255 - b` cast back to a byte, and the
borrow-out is 1. -/
def sub_scalar_underflow (a b underflow : Nat) : Nat × Nat :=
  if b ≤ a then
    if underflow ≤ a - b then
      (a - b - underflow, 0)
    else
      ((a + 255 - b) % 256, 1)
  else
    ((a + 255 - b) % 256, 1)

/-- Tail of the addition loop once the left buffer is exhausted
(`zip_longest` keeps yielding the digits of the right buffer, a missing left
digit is 0); a positive final carry is kept as one extra digit. -/
def addLEnil : List Nat → Nat → List Nat
  | [], c => if 0 < c then [c] else []
  | y :: ys, c =>
      (add_scalar_overflow 0 y c).1 :: addLEnil ys (add_scalar_overflow 0 y c).2

/-- Least-significant-first addition loop: the source reverses both buffers,
walks them with `zip_longest` (a missing digit is 0), threads the carry, and
finally keeps a positive final carry as one extra digit. -/
def addLE : List Nat → List Nat → Nat → List Nat
  | [], ys, c => addLEnil ys c
  | x :: xs, [], c =>
      (add_scalar_overflow x 0 c).1 :: addLE xs [] (add_scalar_overflow x 0 c).2
  | x :: xs, y :: ys, c =>
      (add_scalar_overflow x y c).1 :: addLE xs ys (add_scalar_overflow x y c).2

/-- `Base256` addition (`impl Add`): run the carry loop on the reversed
buffers and reverse the accumulated digits back to big-endian order. -/
def base256_add (a b : List Nat) : List Nat :=
  (addLE a.reverse b.reverse 0).reverse

/-- Tail of the subtraction loop once the left buffer is exhausted (a
missing left digit is 0); a borrow left after the last digit is dropped. -/
def subLEnil : List Nat → Nat → List Nat
  | [], _ => []
  | y :: ys, u =>
      (sub_scalar_underflow 0 y u).1 :: subLEnil ys (sub_scalar_underflow 0 y u).2

/-- Least-significant-first subtraction loop: mirror of `addLE` with borrow
instead of carry; a borrow left after the last digit is dropped. -/
def subLE : List Nat → List Nat → Nat → List Nat
  | [], ys, u => subLEnil ys u
  | x :: xs, [], u =>
      (sub_scalar_underflow x 0 u).1 :: subLE xs [] (sub_scalar_underflow x 0 u).2
  | x :: xs, y :: ys, u =>
      (sub_scalar_underflow x y u).1 :: subLE xs ys (sub_scalar_underflow x y u).2

/-- The derived `Ord` of `Base256` compares the inner `Vec<u8>`
lexicographically: the first differing digit decides, and a strict prefix is
smaller. -/
def lexLt : List Nat → List Nat → Bool
  | [], [] => false
  | [], _ :: _ => true
  | _ :: _, [] => false
  | a :: as, b :: bs => if a < b then true else if b < a then false else lexLt as bs

/-- `Base256` subtraction (`impl Sub`): the source panics when `self < rhs`
under the derived lexicographic order, modelled here as `none`; otherwise it
runs the borrow loop on the reversed buffers. -/
def base256_sub (a b : List Nat) : Option (List Nat) :=
  if lexLt a b then none
  else some ((subLE a.reverse b.reverse 0).reverse)

/-- `Base256` XOR (`impl BitXor`): `zip_longest` in forward (most-significant
first) index order; a position past the shorter operand copies the digit of
the longer operand. -/
def base256_xor : List Nat → List Nat → List Nat
  | [], ys => ys
  | x :: xs, [] => x :: xs
  | x :: xs, y :: ys => Nat.xor x y :: base256_xor xs ys

/-- The `for` loop of `scalar_multiply`: add the operand to the accumulator
`n` times. -/
def scalar_multiply_loop (v : List Nat) : Nat → List Nat → List Nat
  | 0, res => res
  | n + 1, res => scalar_multiply_loop v n (base256_add res v)

/-- `scalar_multiply`: repeated addition starting from the single digit 0. -/
def scalar_multiply (v : List Nat) (n : Nat) : List Nat :=
  scalar_multiply_loop v n [0]

/-- `wrapped_add`: add, then when the raw sum is longer than `byte_length`
drop the excess leading digits (`skip (inner_len - byte_length)`). -/
def wrapped_add (a b : List Nat) (byte_length : Nat) : List Nat :=
  let res := base256_add a b
  if byte_length < res.length then res.drop (res.length - byte_length) else res

/-- The `for` loop of `wrapped_scalar_multiply`: wrapped-add the operand to
the accumulator `n` times. -/
def wsm_loop (v : List Nat) (w : Nat) : Nat → List Nat → List Nat
  | 0, res => res
  | n + 1, res => wsm_loop v w n (wrapped_add res v w)

/-- `wrapped_scalar_multiply`: repeated wrapped addition starting from the
single digit 0. -/
def wrapped_scalar_multiply (v : List Nat) (n w : Nat) : List Nat :=
  wsm_loop v w n [0]

/-- Modelled from the spec (the comparison function named by C5, absent from
the source): compute the full scalar product, then truncate to `w` bytes
once at the end by dropping excess leading digits. -/
def product_then_truncate (v : List Nat) (n w : Nat) : List Nat :=
  let res := scalar_multiply v n
  if w < res.length then res.drop (res.length - w) else res

/-- Numeric value of a least-significant-first digit list. -/
def leVal : List Nat → Nat
  | [] => 0
  | d :: ds => d + 256 * leVal ds

/-- Big-endian base-256 numeric value of a Base256 buffer. -/
def beVal (l : List Nat) : Nat := leVal l.reverse

theorem bytes_cons_iff {x : Nat} {xs : List Nat} :
    Bytes (x :: xs) ↔ x < 256 ∧ Bytes xs := by
  simp [Bytes]

theorem bytes_reverse {l : List Nat} : Bytes l.reverse ↔ Bytes l := by
  simp [Bytes]

theorem aso_spec (a b c : Nat) (ha : a < 256) (hb : b < 256) (hc : c < 256) :
    add_scalar_overflow a b c = ((a + b + c) % 256, (a + b + c) / 256) := by
  unfold add_scalar_overflow
  split_ifs with h1 h2 <;> simp only [Prod.mk.injEq] <;> omega

theorem ssu_spec (a b u : Nat) (hu : u ≤ 1) :
    sub_scalar_underflow a b u =
      if a < b + u then (a + 255 - b, 1) else (a - b - u, 0) := by
  have hmod : a < b + u → (a + 255 - b) % 256 = a + 255 - b := by
    intro h
    apply Nat.mod_eq_of_lt
    omega
  unfold sub_scalar_underflow
  by_cases h1 : b ≤ a
  · by_cases h2 : u ≤ a - b
    · rw [if_pos h1, if_pos h2, if_neg (by omega)]
    · rw [if_pos h1, if_neg h2, if_pos (by omega), hmod (by omega)]
  · rw [if_neg h1, if_pos (by omega), hmod (by omega)]

theorem leVal_append (u v : List Nat) :
    leVal (u ++ v) = leVal u + 256 ^ u.length * leVal v := by
  induction u with
  | nil => simp [leVal]
  | cons d ds ih =>
      simp only [List.cons_append, leVal, List.length_cons, pow_succ, List.append_eq]
      rw [ih]
      ring

theorem leVal_lt (l : List Nat) (hl : Bytes l) : leVal l < 256 ^ l.length := by
  induction l with
  | nil => simp [leVal]
  | cons d ds ih =>
      obtain ⟨hd, hds⟩ := bytes_cons_iff.mp hl
      have h := ih hds
      simp only [leVal, List.length_cons, pow_succ]
      omega

theorem beVal_reverse (l : List Nat) : beVal l.reverse = leVal l := by
  simp [beVal]

theorem addLEnil_val (y : List Nat) (c : Nat) (hy : Bytes y) (hc : c < 256) :
    leVal (addLEnil y c) = leVal y + c := by
  induction y generalizing c with
  | nil => by_cases h : 0 < c <;> simp [addLEnil, leVal, h] <;> omega
  | cons d ds ih =>
      obtain ⟨hd, hds⟩ := bytes_cons_iff.mp hy
      rw [addLEnil, aso_spec 0 d c (by omega) hd hc]
      simp only [leVal]
      rw [ih _ hds (by omega)]
      omega

theorem addLE_val (x : List Nat) : ∀ (y : List Nat) (c : Nat), Bytes x → Bytes y →
    c < 256 → leVal (addLE x y c) = leVal x + leVal y + c := by
  induction x with
  | nil =>
      intro y c _ hy hc
      rw [addLE, addLEnil_val y c hy hc]
      simp [leVal]
  | cons d ds ih =>
      intro y c hx hy hc
      obtain ⟨hd, hds⟩ := bytes_cons_iff.mp hx
      cases y with
      | nil =>
          rw [addLE, aso_spec d 0 c hd (by omega) hc]
          simp only [leVal]
          rw [ih [] _ hds (by intro x hx; cases hx) (by omega)]
          simp only [leVal]
          omega
      | cons e es =>
          obtain ⟨he, hes⟩ := bytes_cons_iff.mp hy
          rw [addLE, aso_spec d e c hd he hc]
          simp only [leVal]
          rw [ih es _ hds hes (by omega)]
          omega

theorem addLEnil_bytes (y : List Nat) (c : Nat) (hy : Bytes y) (hc : c < 256) :
    Bytes (addLEnil y c) := by
  induction y generalizing c with
  | nil =>
      by_cases h : 0 < c <;> simp [addLEnil, h, Bytes] <;> omega
  | cons d ds ih =>
      obtain ⟨hd, hds⟩ := bytes_cons_iff.mp hy
      rw [addLEnil, aso_spec 0 d c (by omega) hd hc, bytes_cons_iff]
      exact ⟨by omega, ih _ hds (by omega)⟩

theorem addLE_bytes (x : List Nat) : ∀ (y : List Nat) (c : Nat), Bytes x → Bytes y →
    c < 256 → Bytes (addLE x y c) := by
  induction x with
  | nil => intro y c _ hy hc; exact addLEnil_bytes y c hy hc
  | cons d ds ih =>
      intro y c hx hy hc
      obtain ⟨hd, hds⟩ := bytes_cons_iff.mp hx
      cases y with
      | nil =>
          rw [addLE, aso_spec d 0 c hd (by omega) hc, bytes_cons_iff]
          exact ⟨by omega, ih [] _ hds (by intro x hx; cases hx) (by omega)⟩
      | cons e es =>
          obtain ⟨he, hes⟩ := bytes_cons_iff.mp hy
          rw [addLE, aso_spec d e c hd he hc, bytes_cons_iff]
          exact ⟨by omega, ih es _ hds hes (by omega)⟩

theorem addLEnil_shape (y : List Nat) (c : Nat) :
    ∃ w t, addLEnil y c = w ++ t ∧ w.length = y.length ∧
      (t = [] ∨ ∃ d, 0 < d ∧ t = [d]) := by
  induction y generalizing c with
  | nil =>
      by_cases h : 0 < c
      · exact ⟨[], [c], by simp [addLEnil, h], by simp, Or.inr ⟨c, h, rfl⟩⟩
      · exact ⟨[], [], by simp [addLEnil, h], by simp, Or.inl rfl⟩
  | cons d ds ih =>
      obtain ⟨w, t, hw, hlen, ht⟩ := ih (add_scalar_overflow 0 d c).2
      exact ⟨(add_scalar_overflow 0 d c).1 :: w, t, by rw [addLEnil, hw]; rfl,
        by simp [hlen], ht⟩

theorem addLE_shape (x : List Nat) : ∀ (y : List Nat) (c : Nat),
    ∃ w t, addLE x y c = w ++ t ∧ w.length = max x.length y.length ∧
      (t = [] ∨ ∃ d, 0 < d ∧ t = [d]) := by
  induction x with
  | nil =>
      intro y c
      obtain ⟨w, t, hw, hlen, ht⟩ := addLEnil_shape y c
      exact ⟨w, t, by rw [addLE]; exact hw, by simp [hlen], ht⟩
  | cons d ds ih =>
      intro y c
      cases y with
      | nil =>
          obtain ⟨w, t, hw, hlen, ht⟩ := ih [] (add_scalar_overflow d 0 c).2
          exact ⟨(add_scalar_overflow d 0 c).1 :: w, t, by rw [addLE, hw]; rfl,
            by simp [hlen], ht⟩
      | cons e es =>
          obtain ⟨w, t, hw, hlen, ht⟩ := ih es (add_scalar_overflow d e c).2
          refine ⟨(add_scalar_overflow d e c).1 :: w, t, by rw [addLE, hw]; rfl, ?_, ht⟩
          simp only [List.length_cons, hlen]
          omega

theorem base256_add_val (a b : List Nat) (ha : Bytes a) (hb : Bytes b) :
    beVal (base256_add a b) = beVal a + beVal b := by
  unfold base256_add
  rw [beVal_reverse, addLE_val a.reverse b.reverse 0 (bytes_reverse.mpr ha)
    (bytes_reverse.mpr hb) (by omega)]
  simp [beVal]

theorem base256_add_bytes (a b : List Nat) (ha : Bytes a) (hb : Bytes b) :
    Bytes (base256_add a b) := by
  unfold base256_add
  exact bytes_reverse.mpr (addLE_bytes a.reverse b.reverse 0 (bytes_reverse.mpr ha)
    (bytes_reverse.mpr hb) (by omega))

theorem base256_add_cases (a b : List Nat) (ha : Bytes a) (hb : Bytes b) :
    ((base256_add a b).length = max a.length b.length ∧
      beVal a + beVal b < 256 ^ max a.length b.length) ∨
    (∃ d w, 0 < d ∧ base256_add a b = d :: w ∧
      w.length = max a.length b.length ∧
      d = (beVal a + beVal b) / 256 ^ max a.length b.length ∧
      256 ^ max a.length b.length ≤ beVal a + beVal b) := by
  obtain ⟨w, t, hw, hlen, ht⟩ := addLE_shape a.reverse b.reverse 0
  have hM : max a.reverse.length b.reverse.length = max a.length b.length := by simp
  rw [hM] at hlen
  have hval : leVal (addLE a.reverse b.reverse 0) = beVal a + beVal b := by
    rw [addLE_val a.reverse b.reverse 0 (bytes_reverse.mpr ha) (bytes_reverse.mpr hb)
      (by omega)]
    simp [beVal]
  have hbytes : Bytes (addLE a.reverse b.reverse 0) :=
    addLE_bytes a.reverse b.reverse 0 (bytes_reverse.mpr ha) (bytes_reverse.mpr hb)
      (by omega)
  have hwbytes : Bytes w := by
    rw [hw] at hbytes
    intro x hx
    exact hbytes x (List.mem_append_left _ hx)
  have hwlt : leVal w < 256 ^ max a.length b.length := by
    rw [← hlen]
    exact leVal_lt w hwbytes
  rcases ht with rfl | ⟨d, hd, rfl⟩
  · left
    rw [List.append_nil] at hw
    constructor
    · unfold base256_add
      rw [hw, List.length_reverse, hlen]
    · rw [← hval, hw]
      exact hwlt
  · right
    have hrev : base256_add a b = d :: w.reverse := by
      unfold base256_add
      rw [hw, List.reverse_append]
      rfl
    have hvalw : beVal a + beVal b = leVal w + 256 ^ max a.length b.length * d := by
      rw [← hval, hw, leVal_append, hlen]
      simp [leVal]
    refine ⟨d, w.reverse, hd, hrev, by rw [List.length_reverse, hlen], ?_, ?_⟩
    · rw [hvalw, Nat.add_mul_div_left _ _ (by positivity),
        Nat.div_eq_of_lt hwlt, Nat.zero_add]
    · rw [hvalw]
      have : 1 ≤ d := hd
      nlinarith [Nat.pos_pow_of_pos (max a.length b.length) (by omega : 0 < 256)]

theorem scalar_multiply_loop_iterate (v : List Nat) :
    ∀ (n : Nat) (res : List Nat),
      scalar_multiply_loop v n res = (fun r => base256_add r v)^[n] res := by
  intro n
  induction n with
  | zero => intro res; rfl
  | succ n ih =>
      intro res
      rw [scalar_multiply_loop, ih, Function.iterate_succ_apply]

theorem scalar_multiply_loop_val (v : List Nat) (hv : Bytes v) :
    ∀ (n : Nat) (res : List Nat), Bytes res →
      beVal (scalar_multiply_loop v n res) = beVal res + n * beVal v ∧
      Bytes (scalar_multiply_loop v n res) := by
  intro n
  induction n with
  | zero =>
      intro res hres
      exact ⟨by rw [scalar_multiply_loop]; ring, hres⟩
  | succ n ih =>
      intro res hres
      rw [scalar_multiply_loop]
      obtain ⟨h1, h2⟩ := ih (base256_add res v) (base256_add_bytes res v hres hv)
      refine ⟨?_, h2⟩
      rw [h1, base256_add_val res v hres hv]
      ring

theorem wsm_loop_iterate (v : List Nat) (w : Nat) :
    ∀ (n : Nat) (res : List Nat),
      wsm_loop v w n res = (fun r => wrapped_add r v w)^[n] res := by
  intro n
  induction n with
  | zero => intro res; rfl
  | succ n ih =>
      intro res
      rw [wsm_loop, ih, Function.iterate_succ_apply]


/-- Claim C1 (counter-evidence): the spec states that for all a >= b under
the lexicographic ordering, (a - b) + b == a.  The code violates this: at
a = [1,0], b = [0,1] (where a > b lexicographically and both lengths agree)
subtraction returns [0,254], although the numeric difference 256 - 1 is 255,
and adding b back yields [0,255], not a.  The per-digit borrow path of
`sub_scalar_underflow` computes a + 255 - b where the exact rule requires
a + 256 - b - borrow_in, so every digit at which a borrow starts fresh comes
out one too small. -/
theorem sub_add_inverse_failure :
    lexLt [1, 0] [0, 1] = false ∧
    base256_sub [1, 0] [0, 1] = some [0, 254] ∧
    base256_add [0, 254] [0, 1] = [0, 255] ∧
    base256_add [0, 254] [0, 1] ≠ [1, 0] ∧
    beVal [1, 0] = 256 ∧ beVal [0, 1] = 1 ∧ beVal [0, 254] = 254 := by
  decide

/-- Claim C2: addition is exact: the big-endian base-256 value of a + b is
the value of a plus the value of b, and at each byte position the digit
machinery returns byte_sum mod 256 as the result byte and byte_sum / 256 as
the carry-out, where byte_sum = a_byte + b_byte + carry_in in a widened
accumulator. -/
theorem add_exact (a b : List Nat) (ha : Bytes a) (hb : Bytes b) :
    beVal (base256_add a b) = beVal a + beVal b ∧
    ∀ x y c, x < 256 → y < 256 → c < 256 →
      add_scalar_overflow x y c = ((x + y + c) % 256, (x + y + c) / 256) :=
  ⟨base256_add_val a b ha hb, fun x y c hx hy hc => aso_spec x y c hx hy hc⟩

/-- Witness for C2 at a = [255,255,255], b = [1]. -/
theorem add_exact_witness :
    beVal (base256_add [255, 255, 255] [1]) = beVal [255, 255, 255] + beVal [1] ∧
    ∀ x y c, x < 256 → y < 256 → c < 256 →
      add_scalar_overflow x y c = ((x + y + c) % 256, (x + y + c) / 256) :=
  add_exact [255, 255, 255] [1] (by decide) (by decide)

/-- Claim C3: subtraction fails fatally (modelled as `none`) exactly when
a < b under the byte-sequence lexicographic ordering; whenever a >= b it
returns a value, and a failure never produces a wrapped result.  The last
conjunct records that the ordering is not numeric when lengths differ:
[1,0] < [9] lexicographically although its numeric value is larger. -/
theorem sub_fatal_iff_lex_lt (a b : List Nat) :
    (base256_sub a b = none ↔ lexLt a b = true) ∧
    (lexLt a b = false → ∃ r, base256_sub a b = some r) ∧
    (lexLt [1, 0] [9] = true ∧ beVal [9] < beVal [1, 0]) := by
  unfold base256_sub
  refine ⟨?_, ?_, by decide⟩
  · by_cases h : lexLt a b = true <;> simp [h]
  · intro h
    simp [h]

/-- Witness for C3 at a = [30, 200], b = [30, 170]. -/
theorem sub_fatal_iff_lex_lt_witness :
    ∃ r, base256_sub [30, 200] [30, 170] = some r :=
  (sub_fatal_iff_lex_lt [30, 200] [30, 170]).2.1 (by decide)

/-- Claim C4: the per-digit borrow rule: when a_byte - borrow_in < b_byte
(over the integers, i.e. a < b + borrow_in), the digit is the widened
difference plus 255 and the borrow-out is 1; otherwise the digit is the
plain difference and the borrow-out is 0; and [200,200] - [0,255]
returns [199,200]. -/
theorem sub_borrow_rule (a b u : Nat) (ha : a < 256) (hb : b < 256) (hu : u ≤ 1) :
    sub_scalar_underflow a b u =
      (if a < b + u then (a + 255 - b, 1) else (a - b - u, 0)) ∧
    base256_sub [200, 200] [0, 255] = some [199, 200] :=
  ⟨ssu_spec a b u hu, by decide⟩

/-- Witness for C4 at the digit triple (5, 8, 0) from the unit tests of the
source. -/
theorem sub_borrow_rule_witness :
    sub_scalar_underflow 5 8 0 =
      (if 5 < 8 + 0 then (5 + 255 - 8, 1) else (5 - 8 - 0, 0)) ∧
    base256_sub [200, 200] [0, 255] = some [199, 200] :=
  sub_borrow_rule 5 8 0 (by decide) (by decide) (by decide)

set_option maxRecDepth 8000 in
/-- Claim C5: wrapped scalar multiplication is the n-fold iteration of
wrapped addition of the operand starting from the accumulator [0], with
truncation applied at every step; and it is not the same function as
computing the full scalar product and truncating once at the end: the two
differ at v = [1], n = 0, width = 0, where the iterated version returns [0]
untouched while the truncate-once version truncates [0] to []. -/
theorem wrapped_scalar_multiply_iter (v : List Nat) (n w : Nat) :
    wrapped_scalar_multiply v n w = (fun r => wrapped_add r v w)^[n] [0] ∧
    wrapped_scalar_multiply [1] 0 0 ≠ product_then_truncate [1] 0 0 ∧
    wrapped_scalar_multiply [1, 1, 1] 40 3 = [40, 40, 40] :=
  ⟨wsm_loop_iterate v w n [0], by decide, by decide⟩

/-- Claim C6: wrapped addition computes a + b, then, when the raw sum is
longer than the width, drops the excess leading bytes so that exactly
width bytes remain; when the raw sum fits in the width it is returned
unchanged (possibly shorter than width, with no left padding); including
the two concrete cases of the spec. -/
theorem wrapped_add_truncation (a b : List Nat) (w : Nat) :
    (w < (base256_add a b).length →
       wrapped_add a b w = (base256_add a b).drop ((base256_add a b).length - w) ∧
       (wrapped_add a b w).length = w) ∧
    ((base256_add a b).length ≤ w → wrapped_add a b w = base256_add a b) ∧
    wrapped_add [255, 255] [0, 1] 2 = [0, 0] ∧
    wrapped_add [255, 255] [0, 1] 3 = [1, 0, 0] := by
  refine ⟨?_, ?_, by decide, by decide⟩
  · intro h
    refine ⟨by simp only [wrapped_add, if_pos h], ?_⟩
    simp only [wrapped_add, if_pos h, List.length_drop]
    omega
  · intro h
    simp only [wrapped_add, if_neg (by omega : ¬ w < (base256_add a b).length)]

/-- Witness for C6 at a = [255,255], b = [0,1], width = 2 (the truncating
case) and width = 3 (the non-truncating case). -/
theorem wrapped_add_truncation_witness :
    (wrapped_add [255, 255] [0, 1] 2 =
       (base256_add [255, 255] [0, 1]).drop ((base256_add [255, 255] [0, 1]).length - 2) ∧
     (wrapped_add [255, 255] [0, 1] 2).length = 2) ∧
    wrapped_add [255, 255] [0, 1] 3 = base256_add [255, 255] [0, 1] :=
  ⟨(wrapped_add_truncation [255, 255] [0, 1] 2).1 (by decide),
   (wrapped_add_truncation [255, 255] [0, 1] 3).2.1 (by decide)⟩

/-- Claim C7: the length of a + b is max(len a, len b) when no carry remains
past the most-significant position (the numeric sum fits in that many
bytes), and max(len a, len b) + 1 when a carry remains, in which case the
carry digit is prepended as the new leading byte; and
[255,255,255] + [1] = [1,0,0,0]. -/
theorem add_length_carry (a b : List Nat) (ha : Bytes a) (hb : Bytes b) :
    (beVal a + beVal b < 256 ^ max a.length b.length →
       (base256_add a b).length = max a.length b.length) ∧
    (256 ^ max a.length b.length ≤ beVal a + beVal b →
       (base256_add a b).length = max a.length b.length + 1 ∧
       base256_add a b = (beVal a + beVal b) / 256 ^ max a.length b.length ::
         (base256_add a b).tail) ∧
    base256_add [255, 255, 255] [1] = [1, 0, 0, 0] := by
  rcases base256_add_cases a b ha hb with ⟨hlen, hlt⟩ | ⟨d, w, hd, heq, hwlen, hdval, hge⟩
  · exact ⟨fun _ => hlen, fun h => absurd h (by omega), by decide⟩
  · refine ⟨fun h => absurd h (by omega), fun h => ⟨?_, ?_⟩, by decide⟩
    · rw [heq, List.length_cons, hwlen]
    · rw [heq, List.tail_cons, ← hdval]

/-- Witness for C7 at a = [255,255,255], b = [1], where the final carry
grows the length from 3 to 4. -/
theorem add_length_carry_witness :
    (base256_add [255, 255, 255] [1]).length =
      max [255, 255, 255].length [1].length + 1 ∧
    base256_add [255, 255, 255] [1] =
      (beVal [255, 255, 255] + beVal [1]) /
        256 ^ max [255, 255, 255].length [1].length ::
        (base256_add [255, 255, 255] [1]).tail :=
  (add_length_carry [255, 255, 255] [1] (by decide) (by decide)).2.1 (by decide)

/-- Claim C8: XOR aligns the operands from the most-significant end and
walks them in forward index order: the result has length
max(len a, len b), position i carries the XOR of the two digits at i, and
positions past the shorter operand copy the digit of the longer operand
(stated via getD with default 0, since XOR with 0 is the identity). -/
theorem nat_xor_zero_left (n : Nat) : Nat.xor 0 n = n := Nat.zero_xor n

theorem nat_xor_zero_right (n : Nat) : Nat.xor n 0 = n := Nat.xor_zero n

theorem xor_forward_alignment (a b : List Nat) :
    (base256_xor a b).length = max a.length b.length ∧
    ∀ i, (base256_xor a b).getD i 0 = Nat.xor (a.getD i 0) (b.getD i 0) := by
  induction a generalizing b with
  | nil =>
      refine ⟨by simp [base256_xor], fun i => ?_⟩
      simp [base256_xor, List.getD_nil, nat_xor_zero_left]
  | cons x xs ih =>
      cases b with
      | nil =>
          refine ⟨by simp [base256_xor], fun i => ?_⟩
          simp [base256_xor, List.getD_nil, nat_xor_zero_right]
      | cons y ys =>
          obtain ⟨ihlen, ihget⟩ := ih ys
          refine ⟨?_, fun i => ?_⟩
          · simp only [base256_xor, List.length_cons, ihlen]
            omega
          · cases i with
            | zero => simp [base256_xor]
            | succ j =>
                simp only [base256_xor, List.getD_cons_succ]
                exact ihget j

/-- Claim C9: scalar multiplication is the n-fold repeated addition of the
operand starting from the single-byte accumulator [0]; it is exact (the
value of the result is n times the value of the operand); n = 0 yields [0]
for every operand including the empty one; and
[1,1,1].scalar_multiply(3) = [3,3,3]. -/
theorem scalar_multiply_spec (v : List Nat) (n : Nat) (hv : Bytes v) :
    scalar_multiply v n = (fun r => base256_add r v)^[n] [0] ∧
    scalar_multiply v 0 = [0] ∧
    scalar_multiply [] 0 = [0] ∧
    beVal (scalar_multiply v n) = n * beVal v ∧
    scalar_multiply [1, 1, 1] 3 = [3, 3, 3] := by
  refine ⟨scalar_multiply_loop_iterate v n [0], rfl, rfl, ?_, by decide⟩
  obtain ⟨h1, _⟩ := scalar_multiply_loop_val v hv n [0] (by decide)
  rw [scalar_multiply, h1]
  have h0 : beVal [0] = 0 := rfl
  omega

/-- Witness for C9 at v = [1,1,1], n = 3. -/
theorem scalar_multiply_spec_witness :
    scalar_multiply [1, 1, 1] 3 = (fun r => base256_add r [1, 1, 1])^[3] [0] ∧
    scalar_multiply [1, 1, 1] 0 = [0] ∧
    scalar_multiply [] 0 = [0] ∧
    beVal (scalar_multiply [1, 1, 1] 3) = 3 * beVal [1, 1, 1] ∧
    scalar_multiply [1, 1, 1] 3 = [3, 3, 3] :=
  scalar_multiply_spec [1, 1, 1] 3 (by decide)

/-- Claim C10: at a = [9], b = [1,0] the operand a is lexicographically
greater than b but numerically smaller, and subtraction does not fail: it
returns [254,9], a buffer of length max(len a, len b) = 2, silently
dropping the borrow left after the most-significant position, so the
returned bytes are not a numeric difference (which is undefined for an
unsigned type since 9 < 256). -/
theorem sub_lex_greater_numeric_smaller :
    lexLt [9] [1, 0] = false ∧
    lexLt [1, 0] [9] = true ∧
    beVal [9] < beVal [1, 0] ∧
    base256_sub [9] [1, 0] = some [254, 9] ∧
    ([254, 9] : List Nat).length = max ([9] : List Nat).length ([1, 0] : List Nat).length := by
  decide
